import Mathlib

/-!
A shallow embedding of the POSIX build of `path-util.cpp` (yiptool/path-util), and the
properties of its path algebra and of `pathCreate`.

`std::string` is embedded as `List Char` (one `Char` per byte), `size_t` as `Nat`,
`std::string::npos` as `none`.  Every definition below follows the branch of the source
that is compiled when `_WIN32` is not defined.
-/

namespace PathUtil

/-- A `std::string`. -/
abbrev Str := List Char

/-! ## `std::string` primitives used by the source -/

/-- `s[i]` on a `const std::string &`: the character at `i`, and the terminating
`'\0'` at `i = s.length()`. -/
def charAt (s : Str) (i : Nat) : Char := s.getD i (Char.ofNat 0)

/-- Scan used by `strFind`: first position of `ch` in `s`, positions counted from `i`. -/
def findAux (ch : Char) : Str → Nat → Option Nat
  | [], _ => none
  | c :: cs, i => if c = ch then some i else findAux ch cs (i + 1)

/-- `s.find(ch, start)`: the first position `>= start` holding `ch`, or `npos`. -/
def strFind (s : Str) (ch : Char) (start : Nat) : Option Nat :=
  findAux ch (s.drop start) start

/-- Scan used by `strRFind`: last position of `ch` in `s`, positions counted from `i`. -/
def rfindAux (ch : Char) : Str → Nat → Option Nat
  | [], _ => none
  | c :: cs, i =>
    match rfindAux ch cs (i + 1) with
    | some j => some j
    | none => if c = ch then some i else none

/-- `s.rfind(ch)`: the last position holding `ch`, or `npos`. -/
def strRFind (s : Str) (ch : Char) : Option Nat := rfindAux ch s 0

/-- `s.substr(pos, n)` for `pos <= s.length()` (the source never calls it otherwise). -/
def substr (s : Str) (pos n : Nat) : Str := (s.drop pos).take n

/-- `s.substr(pos)` for `pos <= s.length()` (the source never calls it otherwise). -/
def substrFrom (s : Str) (pos : Nat) : Str := s.drop pos

/-! ## Separators -/

/-- `pathSeparator()`, POSIX branch. -/
def pathSeparator : Str := ['/']

/-- `pathIsSeparator(ch)`, POSIX branch. -/
def pathIsSeparator (ch : Char) : Bool :=
  if ch = '/' then true else false

/-- `pathIsAbsolute(path)`, POSIX branch. -/
def pathIsAbsolute (path : Str) : Bool :=
  if path.length ≥ 1 ∧ charAt path 0 = '~' then
    (path.length == 1 || pathIsSeparator (charAt path 1))
  else
    pathIsSeparator (charAt path 0)

/-- `pathIndexOfFirstSeparator(path, start)`, POSIX branch. -/
def pathIndexOfFirstSeparator (path : Str) (start : Nat) : Option Nat :=
  strFind path '/' start

/-! ## `pathSimplify` -/

/-- Body of the `if (part.length() > 0 && part != ".")` statement of the loop of
`pathSimplify`: the effect of one separator-terminated component on `parts`. -/
def simplifyPush (parts : List Str) (part : Str) : List Str :=
  if part.length > 0 ∧ part ≠ ['.'] then
    if part = ['.', '.'] ∧ parts.length > 0 ∧ parts.getLast? ≠ some ['.', '.'] then
      parts.dropLast
    else
      parts ++ [part]
  else
    parts

/-- The `for (;;)` loop of `pathSimplify`, from scan offset `off` with accumulator `parts`.
Each iteration moves `off` past one separator, so `path.length + 1` iterations always
reach the `break`; `fuel` counts the iterations still allowed. -/
def simplifyLoop : Nat → Str → Nat → List Str → List Str
  | 0, _, _, parts => parts
  | fuel + 1, path, off, parts =>
    match pathIndexOfFirstSeparator path off with
    | none =>
      let part := substrFrom path off
      if part.length > 0 then parts ++ [part] else parts
    | some pos =>
      let part := substr path off (pos - off)
      simplifyLoop fuel path (pos + 1) (simplifyPush parts part)

/-- The final `for (const std::string & part : parts)` loop of `pathSimplify`: the text
it appends to the stream, `pre` being the current value of `prefix`. -/
def joinParts (pre : Str) : List Str → Str
  | [] => []
  | part :: rest => pre ++ part ++ joinParts pathSeparator rest

/-- `pathSimplify(path)`, POSIX branch. -/
def pathSimplify (path : Str) : Str :=
  if path.length > 0 ∧ charAt path 0 = '~' then
    if path.length = 1 then
      path
    else if pathIsSeparator (charAt path 1) then
      ['~'] ++ pathSeparator ++ joinParts [] (simplifyLoop (path.length + 1) path 2 [])
    else
      joinParts [] (simplifyLoop (path.length + 1) path 0 [])
  else if path.length > 0 ∧ pathIsSeparator (charAt path 0) then
    pathSeparator ++ joinParts [] (simplifyLoop (path.length + 1) path 1 [])
  else
    joinParts [] (simplifyLoop (path.length + 1) path 0 [])

/-! ## Concatenation and splitting -/

/-- `pathConcat(path1, path2)`. -/
def pathConcat (path1 path2 : Str) : Str :=
  if path1.length = 0 then
    path2
  else if path2.length = 0 then
    path1
  else if pathIsSeparator (charAt path1 (path1.length - 1)) then
    path1 ++ path2
  else
    path1 ++ pathSeparator ++ path2

/-- `pathIndexOfFileName(path)`, POSIX branch. -/
def pathIndexOfFileName (path : Str) : Nat :=
  match strRFind path '/' with
  | some pos => pos + 1
  | none => 0

/-- `pathGetDirectory(path)`. -/
def pathGetDirectory (path : Str) : Str :=
  let pos := pathIndexOfFileName path
  let pos := if pos > 0 then pos - 1 else pos
  substr path 0 pos

/-- `pathGetFileName(path)`. -/
def pathGetFileName (path : Str) : Str :=
  substrFrom path (pathIndexOfFileName path)

/-- `pathGetShortFileExtension(path)`. -/
def pathGetShortFileExtension (path : Str) : Str :=
  match strRFind path '.' with
  | none => []
  | some pos =>
    let offset := pathIndexOfFileName path
    if pos < offset then [] else substrFrom path pos

/-- `pathGetFullFileExtension(path)`. -/
def pathGetFullFileExtension (path : Str) : Str :=
  let offset := pathIndexOfFileName path
  match strFind path '.' offset with
  | none => []
  | some pos => substrFrom path pos

/-- `pathReplaceFullFileExtension(path, ext)`. -/
def pathReplaceFullFileExtension (path ext : Str) : Str :=
  let offset := pathIndexOfFileName path
  match strFind path '.' offset with
  | none => path ++ ext
  | some pos => substr path 0 pos ++ ext

/-! ## `pathMakeAbsolute` -/

/-- `pathMakeAbsolute(path, basePath)`, POSIX branch.  `home` is the string that
`pathGetUserHomeDirectory()` returns (the `HOME` variable, or else the password-database
entry). -/
def pathMakeAbsolute (home path basePath : Str) : Str :=
  let rest : Str :=
    if pathIsSeparator (charAt path 0) then
      pathSimplify path
    else
      pathSimplify (pathConcat basePath path)
  if path.length ≥ 1 ∧ charAt path 0 = '~' then
    if path.length = 1 then
      home
    else if pathIsSeparator (charAt path 1) then
      pathSimplify (pathConcat home (substrFrom path 2))
    else
      rest
  else
    rest

/-- `pathMakeAbsolute(path)`, POSIX branch.  `cwd` is the string that
`pathGetCurrentDirectory()` returns. -/
def pathMakeAbsolute1 (home cwd path : Str) : Str :=
  pathMakeAbsolute home path cwd

/-! ## `pathCreate` over an explicit filesystem -/

/-- Modelled from the spec: the state of the filesystem that `mkdir` acts on, which is
outside the repository: the existing directories, named by their absolute path, and the
history of the `mkdir` calls made so far, oldest first. -/
structure FileSystem where
  dirs : List Str
  calls : List Str

/-- The three outcomes of `mkdir` that `pathCreate` tells apart: success, failure with
`errno == EEXIST`, failure with another `errno`. -/
inductive MkdirResult
  | created
  | eexist
  | failed
  deriving DecidableEq, Repr

/-- Modelled from the spec: the parent of the directory named `d`, which is the text
before the last separator of `d`, and the root when that text is empty. -/
def fsParent (d : Str) : Str :=
  match pathGetDirectory d with
  | [] => ['/']
  | p => p

/-- Modelled from the spec: the system call `mkdir(d, 0755)`, which is outside the
repository: it reports `EEXIST` when `d` is present, succeeds and adds `d` when `d` is
absent and its parent exists, and fails otherwise; every call is recorded. -/
def mkdir (fs : FileSystem) (d : Str) : MkdirResult × FileSystem :=
  if d ∈ fs.dirs then
    (MkdirResult.eexist, { dirs := fs.dirs, calls := fs.calls ++ [d] })
  else if fsParent d ∈ fs.dirs then
    (MkdirResult.created, { dirs := fs.dirs ++ [d], calls := fs.calls ++ [d] })
  else
    (MkdirResult.failed, { dirs := fs.dirs, calls := fs.calls ++ [d] })

/-- The ways `pathCreate` ends without a value: the two `throw` statements of its POSIX
branch, and the iteration bound of `createLoop`. -/
inductive CreateError
  | invalidPath
  | mkdirFailed
  | outOfFuel
  deriving DecidableEq, Repr

/-- The `do ... while (end != npos)` loop of `pathCreate`, from scan offset `off`.
Each iteration moves `off` past one separator, so `dir.length + 1` iterations always
reach the exit; `fuel` counts the iterations still allowed. -/
def createLoop : Nat → Str → Nat → Bool → FileSystem → Except CreateError (Bool × FileSystem)
  | 0, _, _, _, _ => Except.error CreateError.outOfFuel
  | fuel + 1, dir, off, result, fs =>
    let stop := pathIndexOfFirstSeparator dir off
    let subdir : Str :=
      match stop with
      | none => dir
      | some e => substr dir 0 e
    match mkdir fs subdir with
    | (MkdirResult.created, fs') =>
      match stop with
      | none => Except.ok (true, fs')
      | some e => createLoop fuel dir (e + 1) true fs'
    | (MkdirResult.eexist, fs') =>
      match stop with
      | none => Except.ok (result, fs')
      | some e => createLoop fuel dir (e + 1) result fs'
    | (MkdirResult.failed, _) => Except.error CreateError.mkdirFailed

/-- `pathCreate(path)`, POSIX branch, on the filesystem `fs`; `home` and `cwd` are what
`pathGetUserHomeDirectory()` and `pathGetCurrentDirectory()` return. -/
def pathCreate (home cwd : Str) (fs : FileSystem) (path : Str) :
    Except CreateError (Bool × FileSystem) :=
  let dir := pathMakeAbsolute1 home cwd path
  if pathIsSeparator (charAt dir 0) then
    createLoop (dir.length + 1) dir 1 false fs
  else
    Except.error CreateError.invalidPath

/-- The sequence of `mkdir` calls of `pathCreate` read over the list of directories it
visits: `result` becomes true at a successful call, `EEXIST` is passed over, any other
failure throws. -/
def runMkdirs : Bool → FileSystem → List Str → Except CreateError (Bool × FileSystem)
  | result, fs, [] => Except.ok (result, fs)
  | result, fs, d :: ds =>
    match mkdir fs d with
    | (MkdirResult.created, fs') => runMkdirs true fs' ds
    | (MkdirResult.eexist, fs') => runMkdirs result fs' ds
    | (MkdirResult.failed, _) => Except.error CreateError.mkdirFailed

/-- The directories `/c1`, `/c1/c2`, ... obtained by appending the components `cs` one
at a time to the directory `P`. -/
def prefixesFrom (P : Str) : List Str → List Str
  | [] => []
  | c :: cs => (P ++ '/' :: c) :: prefixesFrom (P ++ '/' :: c) cs

/-- A real component name: non-empty, without separator, and neither `"."` nor `".."`. -/
def RealComponent (c : Str) : Prop :=
  c ≠ [] ∧ '/' ∉ c ∧ c ≠ ['.'] ∧ c ≠ ['.', '.']

instance : DecidablePred RealComponent := fun c => by
  unfold RealComponent
  infer_instance

/-! ## The path algebra with the range checks of `std::string`

The definitions above read `substr` as a total function.  The ones below follow the same
source lines with every access checked: `none` stands for the `std::out_of_range` that
`substr` throws when its start offset exceeds the length, and for an index beyond the
terminating `'\0'` in `operator[]`.  `find` and `rfind` accept every start offset. -/

/-- `s[i]`, defined for `i <= s.length()` only. -/
def charAtC (s : Str) (i : Nat) : Option Char :=
  if i ≤ s.length then some (charAt s i) else none

/-- `s.substr(pos, n)`, which throws when `pos > s.length()`. -/
def substrC (s : Str) (pos n : Nat) : Option Str :=
  if pos ≤ s.length then some ((s.drop pos).take n) else none

/-- `s.substr(pos)`, which throws when `pos > s.length()`. -/
def substrFromC (s : Str) (pos : Nat) : Option Str :=
  if pos ≤ s.length then some (s.drop pos) else none

/-- `pathIsAbsolute(path)`, POSIX branch, with checked accesses. -/
def pathIsAbsoluteC (path : Str) : Option Bool :=
  let tilde : Option Bool :=
    if path.length ≥ 1 then (charAtC path 0).map (fun c => decide (c = '~')) else some false
  tilde.bind fun t =>
    if t then
      if path.length = 1 then some true else (charAtC path 1).map pathIsSeparator
    else
      (charAtC path 0).map pathIsSeparator

/-- The `for (;;)` loop of `pathSimplify` with checked `substr`: both branches take a
substring that starts at the scan offset `off`, so an iteration with `off > path.length`
gives `none`; so does running out of `fuel`. -/
def simplifyLoopC : Nat → Str → Nat → List Str → Option (List Str)
  | 0, _, _, _ => none
  | fuel + 1, path, off, parts =>
    match pathIndexOfFirstSeparator path off with
    | none =>
      match substrFromC path off with
      | none => none
      | some part => some (if part.length > 0 then parts ++ [part] else parts)
    | some pos =>
      match substrC path off (pos - off) with
      | none => none
      | some part => simplifyLoopC fuel path (pos + 1) (simplifyPush parts part)

/-- `pathSimplify(path)`, POSIX branch, with checked accesses. -/
def pathSimplifyC (path : Str) : Option Str :=
  let tilde : Option Bool :=
    if path.length > 0 then (charAtC path 0).map (fun c => decide (c = '~')) else some false
  tilde.bind fun t =>
    if t then
      if path.length = 1 then
        some path
      else
        (charAtC path 1).bind fun c1 =>
          if pathIsSeparator c1 then
            (simplifyLoopC (path.length + 1) path 2 []).map
              fun parts => ['~'] ++ pathSeparator ++ joinParts [] parts
          else
            (simplifyLoopC (path.length + 1) path 0 []).map (joinParts [])
    else
      let root : Option Bool :=
        if path.length > 0 then (charAtC path 0).map pathIsSeparator else some false
      root.bind fun r =>
        if r then
          (simplifyLoopC (path.length + 1) path 1 []).map
            fun parts => pathSeparator ++ joinParts [] parts
        else
          (simplifyLoopC (path.length + 1) path 0 []).map (joinParts [])

/-- `pathConcat(path1, path2)` with checked accesses. -/
def pathConcatC (path1 path2 : Str) : Option Str :=
  if path1.length = 0 then
    some path2
  else if path2.length = 0 then
    some path1
  else
    (charAtC path1 (path1.length - 1)).map fun c =>
      if pathIsSeparator c then path1 ++ path2 else path1 ++ pathSeparator ++ path2

/-- `pathGetDirectory(path)` with checked `substr`. -/
def pathGetDirectoryC (path : Str) : Option Str :=
  let pos := pathIndexOfFileName path
  let pos := if pos > 0 then pos - 1 else pos
  substrC path 0 pos

/-- `pathGetFileName(path)` with checked `substr`. -/
def pathGetFileNameC (path : Str) : Option Str :=
  substrFromC path (pathIndexOfFileName path)

/-- `pathGetShortFileExtension(path)` with checked `substr`. -/
def pathGetShortFileExtensionC (path : Str) : Option Str :=
  match strRFind path '.' with
  | none => some []
  | some pos =>
    let offset := pathIndexOfFileName path
    if pos < offset then some [] else substrFromC path pos

/-- `pathGetFullFileExtension(path)` with checked `substr`. -/
def pathGetFullFileExtensionC (path : Str) : Option Str :=
  let offset := pathIndexOfFileName path
  match strFind path '.' offset with
  | none => some []
  | some pos => substrFromC path pos

/-- `pathReplaceFullFileExtension(path, ext)` with checked `substr`. -/
def pathReplaceFullFileExtensionC (path ext : Str) : Option Str :=
  let offset := pathIndexOfFileName path
  match strFind path '.' offset with
  | none => some (path ++ ext)
  | some pos => (substrC path 0 pos).map fun stem => stem ++ ext

/-! ## Auxiliary notions used to state and prove the properties -/

/-- The components of `s`: the maximal separator-free pieces between consecutive `'/'`,
in order (a string with `k` separators has `k + 1` components, possibly empty ones). -/
def splitSep : Str → List Str
  | [] => [[]]
  | c :: cs =>
    if c = '/' then [] :: splitSep cs
    else
      match splitSep cs with
      | [] => [[c]]
      | p :: ps => (c :: p) :: ps

/-- The loop of `pathSimplify` read over the list of remaining components: every
component but the last goes through `simplifyPush`, the last one takes the `break`
branch. -/
def simplifyComps (parts : List Str) : List Str → List Str
  | [] => parts
  | [l] => if l.length > 0 then parts ++ [l] else parts
  | c :: c' :: cs => simplifyComps (simplifyPush parts c) (c' :: cs)

/-- Shape of the accumulator of `pathSimplify`: no empty part, no `"."`, no separator
inside a part, and a `".."` only at the start or right after another `".."`. -/
def StackNF (S : List Str) : Prop :=
  (∀ x ∈ S, x ≠ [] ∧ x ≠ ['.'] ∧ '/' ∉ x) ∧
    List.Chain' (fun a b : Str => b = ['.', '.'] → a = ['.', '.']) S

/-- Shape of the final `parts` of `pathSimplify`: non-empty separator-free parts, and all
of them but the last one in accumulator shape. -/
def PartsOK (Q : List Str) : Prop :=
  (∀ x ∈ Q, x ≠ [] ∧ '/' ∉ x) ∧ StackNF Q.dropLast

/-- What `pathSimplify` makes of the text that follows its protected prefix: the
processed components joined by the separator. -/
def simplifyRest (s : Str) : Str :=
  joinParts [] (simplifyComps [] (splitSep s))

end PathUtil

namespace PathUtil

/-! ## Scanning lemmas -/

theorem findAux_none {ch : Char} {s : Str} {i : Nat} (h : findAux ch s i = none) : ch ∉ s := by
  induction s generalizing i with
  | nil => simp
  | cons c cs ih =>
    simp only [findAux] at h
    split at h
    · simp at h
    · rename_i hc
      intro hm
      rcases List.mem_cons.1 hm with rfl | hm
      · exact hc rfl
      · exact ih h hm

theorem findAux_some {ch : Char} {s : Str} {i p : Nat} (h : findAux ch s i = some p) :
    ∃ a rest, s = a ++ ch :: rest ∧ ch ∉ a ∧ p = i + a.length := by
  induction s generalizing i with
  | nil => simp [findAux] at h
  | cons c cs ih =>
    simp only [findAux] at h
    split at h
    · rename_i hc
      refine ⟨[], cs, ?_, by simp, ?_⟩
      · simp [hc]
      · simp at h; simp [h]
    · rename_i hc
      obtain ⟨a, rest, h1, h2, h3⟩ := ih h
      refine ⟨c :: a, rest, by simp [h1], ?_, by simp [h3]; omega⟩
      intro hm
      rcases List.mem_cons.1 hm with rfl | hm
      · exact hc rfl
      · exact h2 hm

theorem strFind_none {s : Str} {ch : Char} {start : Nat} (h : strFind s ch start = none) :
    ch ∉ s.drop start :=
  findAux_none h

theorem strFind_some {s : Str} {ch : Char} {start p : Nat} (h : strFind s ch start = some p) :
    ∃ a rest, s.drop start = a ++ ch :: rest ∧ ch ∉ a ∧ p = start + a.length :=
  findAux_some h

theorem splitSep_ne_nil (s : Str) : splitSep s ≠ [] := by
  induction s with
  | nil => simp [splitSep]
  | cons c cs ih =>
    simp only [splitSep]
    split
    · simp
    · split <;> simp

theorem splitSep_of_not_mem {a : Str} (h : '/' ∉ a) : splitSep a = [a] := by
  induction a with
  | nil => rfl
  | cons c cs ih =>
    have hc : c ≠ '/' := fun e => h (by simp [e])
    have hcs : '/' ∉ cs := fun e => h (List.mem_cons_of_mem _ e)
    simp [splitSep, hc, ih hcs]

theorem splitSep_append {a : Str} (h : '/' ∉ a) (rest : Str) :
    splitSep (a ++ '/' :: rest) = a :: splitSep rest := by
  induction a with
  | nil => simp [splitSep]
  | cons c cs ih =>
    have hc : c ≠ '/' := fun e => h (by simp [e])
    have hcs : '/' ∉ cs := fun e => h (List.mem_cons_of_mem _ e)
    simp [splitSep, hc, ih hcs]

theorem splitSep_sepFree (s : Str) : ∀ x ∈ splitSep s, '/' ∉ x := by
  induction s with
  | nil => simp [splitSep]
  | cons c cs ih =>
    simp only [splitSep]
    split
    · intro x hx
      rcases List.mem_cons.1 hx with rfl | hx
      · simp
      · exact ih x hx
    · rename_i hc
      split
      · intro x hx
        simp at hx
        subst hx
        simpa using fun e => hc e.symm
      · rename_i p ps hp
        intro x hx
        rcases List.mem_cons.1 hx with rfl | hx
        · have := ih p (by simp [hp])
          intro hm
          rcases List.mem_cons.1 hm with e | hm
          · exact hc e.symm
          · exact this hm
        · exact ih x (by simp [hp, hx])

theorem simplifyComps_cons (parts : List Str) (c : Str) {cs : List Str} (h : cs ≠ []) :
    simplifyComps parts (c :: cs) = simplifyComps (simplifyPush parts c) cs := by
  cases cs with
  | nil => exact absurd rfl h
  | cons c' cs => rfl

/-- The indexed loop of the source computes the component-wise reading, whenever the
fuel covers the rest of the string. -/
theorem simplifyLoop_eq (fuel : Nat) (path : Str) (off : Nat) (parts : List Str)
    (hoff : off ≤ path.length) (hfuel : path.length - off < fuel) :
    simplifyLoop fuel path off parts = simplifyComps parts (splitSep (path.drop off)) := by
  induction fuel generalizing off parts with
  | zero => omega
  | succ fuel ih =>
    unfold simplifyLoop
    cases hf : pathIndexOfFirstSeparator path off with
    | none =>
      have hno := strFind_none hf
      simp [splitSep_of_not_mem hno, simplifyComps, substrFrom]
    | some pos =>
      obtain ⟨a, rest, h1, h2, h3⟩ := strFind_some hf
      have hlen : path.length - off = a.length + 1 + rest.length := by
        have := congrArg List.length h1
        simp at this
        omega
      have hpart : substr path off (pos - off) = a := by
        simp [substr, h1, h3]
      have hdrop : path.drop (pos + 1) = rest := by
        have : path.drop (pos + 1) = (path.drop off).drop (a.length + 1) := by
          rw [List.drop_drop, h3]
          congr 1
        rw [this, h1]
        simp
      simp only [hpart]
      rw [ih (pos + 1) _ (by omega) (by omega), hdrop, h1, splitSep_append h2,
        simplifyComps_cons _ _ (splitSep_ne_nil rest)]

/-! ## The four shapes of `pathSimplify` -/

theorem pathSimplify_tilde : pathSimplify ['~'] = ['~'] := by
  rfl

theorem pathSimplify_tildeSep (rest : Str) :
    pathSimplify ('~' :: '/' :: rest) = '~' :: '/' :: simplifyRest rest := by
  have h := simplifyLoop_eq (('~' :: '/' :: rest).length + 1) ('~' :: '/' :: rest) 2 []
    (by simp) (by simp; omega)
  simp only [List.drop_succ_cons, List.drop_zero, List.length_cons] at h
  simp [pathSimplify, charAt, pathIsSeparator, pathSeparator, simplifyRest, h]

theorem pathSimplify_root (rest : Str) :
    pathSimplify ('/' :: rest) = '/' :: simplifyRest rest := by
  have h := simplifyLoop_eq (('/' :: rest).length + 1) ('/' :: rest) 1 []
    (by simp) (by simp; omega)
  simp only [List.drop_succ_cons, List.drop_zero, List.length_cons] at h
  simp [pathSimplify, charAt, pathIsSeparator, pathSeparator, simplifyRest, h]

theorem pathSimplify_rel (p : Str) (h1 : ∀ rest, p ≠ '/' :: rest) (h2 : p ≠ ['~'])
    (h3 : ∀ rest, p ≠ '~' :: '/' :: rest) : pathSimplify p = simplifyRest p := by
  have h := simplifyLoop_eq (p.length + 1) p 0 [] (by simp) (by simp)
  simp only [List.drop_zero] at h
  cases p with
  | nil => rfl
  | cons c rest =>
    simp only [List.length_cons] at h
    have hc : c ≠ '/' := fun e => h1 rest (by rw [e])
    by_cases ht : c = '~'
    · subst ht
      cases rest with
      | nil => exact absurd rfl h2
      | cons d r =>
        have hd : d ≠ '/' := fun e => h3 r (by rw [e])
        simp only [List.length_cons] at h
        simp [pathSimplify, charAt, pathIsSeparator, simplifyRest, h, hd]
    · simp [pathSimplify, charAt, pathIsSeparator, simplifyRest, h, hc, ht]

/-! ## Shape of the accumulator -/

theorem simplifyComps_concat (P S : List Str) (l : Str) :
    simplifyComps P (S ++ [l]) =
      if l.length > 0 then S.foldl simplifyPush P ++ [l] else S.foldl simplifyPush P := by
  induction S generalizing P with
  | nil => simp [simplifyComps]
  | cons c cs ih =>
    rw [List.cons_append, simplifyComps_cons _ _ (by simp), ih, List.foldl_cons]

theorem stackNF_nil : StackNF [] :=
  ⟨by simp, List.chain'_nil⟩

theorem stackNF_dropLast {S : List Str} (h : StackNF S) : StackNF S.dropLast :=
  ⟨fun x hx => h.1 x (List.mem_of_mem_dropLast hx), h.2.init⟩

theorem stackNF_push {P : List Str} {x : Str} (hP : StackNF P) (hx : '/' ∉ x) :
    StackNF (simplifyPush P x) := by
  unfold simplifyPush
  split
  · rename_i h1
    split
    · exact stackNF_dropLast hP
    · rename_i h2
      refine ⟨?_, ?_⟩
      · intro y hy
        rcases List.mem_append.1 hy with hy | hy
        · exact hP.1 y hy
        · simp at hy
          subst hy
          exact ⟨fun e => by simp [e] at h1, h1.2, hx⟩
      · rw [List.chain'_append]
        refine ⟨hP.2, List.chain'_singleton _, ?_⟩
        intro a ha b hb hbdd
        simp at hb
        subst hb
        by_contra hne
        apply h2
        refine ⟨hbdd, ?_, ?_⟩
        · cases P with
          | nil => simp at ha
          | cons _ _ => simp
        · intro e
          rw [e] at ha
          simp at ha
          exact hne ha.symm
  · exact hP

theorem stackNF_foldl {P S : List Str} (hP : StackNF P) (hS : ∀ x ∈ S, '/' ∉ x) :
    StackNF (S.foldl simplifyPush P) := by
  induction S generalizing P with
  | nil => exact hP
  | cons c cs ih =>
    rw [List.foldl_cons]
    exact ih (stackNF_push hP (hS c (by simp))) (fun x hx => hS x (List.mem_cons_of_mem _ hx))

theorem simplifyPush_of_stackNF {P : List Str} {x : Str} (h : StackNF (P ++ [x])) :
    simplifyPush P x = P ++ [x] := by
  have hx := h.1 x (by simp)
  have hch := h.2
  rw [List.chain'_append] at hch
  unfold simplifyPush
  have h1 : x.length > 0 ∧ x ≠ ['.'] := ⟨List.length_pos.2 hx.1, hx.2.1⟩
  rw [if_pos h1]
  split
  · rename_i h2
    exfalso
    obtain ⟨hxdd, hlen, hlast⟩ := h2
    cases hl : P.getLast? with
    | none =>
      rw [List.getLast?_eq_none_iff] at hl
      simp [hl] at hlen
    | some a =>
      have := hch.2.2 a (by simp [hl]) x (by simp) hxdd
      exact hlast (by rw [hl, this])
  · rfl

theorem foldl_of_stackNF (P S : List Str) (h : StackNF (P ++ S)) :
    S.foldl simplifyPush P = P ++ S := by
  induction S generalizing P with
  | nil => simp
  | cons c cs ih =>
    have hPc : StackNF (P ++ [c]) := by
      have e : P ++ c :: cs = (P ++ [c]) ++ cs := by simp
      rw [e] at h
      exact ⟨fun x hx => h.1 x (List.mem_append_left _ hx), h.2.left_of_append⟩
    rw [List.foldl_cons, simplifyPush_of_stackNF hPc, ih]
    · simp
    · simpa using h

theorem partsOK_simplifyComps {cs : List Str} (hne : cs ≠ []) (hcs : ∀ x ∈ cs, '/' ∉ x) :
    PartsOK (simplifyComps [] cs) := by
  have e := List.dropLast_append_getLast hne
  have hS : ∀ x ∈ cs.dropLast, '/' ∉ x := fun x hx => hcs x (List.mem_of_mem_dropLast hx)
  have hl : '/' ∉ cs.getLast hne := hcs _ (List.getLast_mem hne)
  have hnf := stackNF_foldl stackNF_nil hS
  rw [← e, simplifyComps_concat]
  split
  · rename_i hpos
    refine ⟨?_, by simpa using hnf⟩
    intro x hx
    rcases List.mem_append.1 hx with hx | hx
    · exact ⟨(hnf.1 x hx).1, (hnf.1 x hx).2.2⟩
    · simp at hx
      subst hx
      exact ⟨List.length_pos.1 hpos, hl⟩
  · exact ⟨fun x hx => ⟨(hnf.1 x hx).1, (hnf.1 x hx).2.2⟩, stackNF_dropLast hnf⟩

theorem partsOK_splitSep (s : Str) : PartsOK (simplifyComps [] (splitSep s)) :=
  partsOK_simplifyComps (splitSep_ne_nil s) (splitSep_sepFree s)

theorem partsOK_tail {x : Str} {Q : List Str} (h : PartsOK (x :: Q)) : PartsOK Q := by
  refine ⟨fun y hy => h.1 y (List.mem_cons_of_mem _ hy), ?_⟩
  have h2 := h.2
  cases Q with
  | nil => exact stackNF_nil
  | cons y ys =>
    rw [List.dropLast_cons_of_ne_nil (by simp)] at h2
    exact ⟨fun z hz => h2.1 z (List.mem_cons_of_mem _ hz), h2.2.tail⟩

/-! ## Joining and splitting again -/

theorem joinParts_sep_cons (y : Str) (ys : List Str) :
    joinParts pathSeparator (y :: ys) = '/' :: joinParts [] (y :: ys) := by
  simp [joinParts, pathSeparator]

theorem joinParts_cons_cons (x y : Str) (ys : List Str) :
    joinParts [] (x :: y :: ys) = x ++ '/' :: joinParts [] (y :: ys) := by
  rw [joinParts, joinParts_sep_cons]
  simp

theorem joinParts_singleton (x : Str) : joinParts [] [x] = x := by
  simp [joinParts]

theorem splitSep_joinParts {Q : List Str} (hne : Q ≠ []) (hQ : ∀ x ∈ Q, '/' ∉ x) :
    splitSep (joinParts [] Q) = Q := by
  induction Q with
  | nil => exact absurd rfl hne
  | cons x rest ih =>
    cases rest with
    | nil =>
      rw [joinParts_singleton]
      exact splitSep_of_not_mem (hQ x (by simp))
    | cons y ys =>
      rw [joinParts_cons_cons, splitSep_append (hQ x (by simp)),
        ih (by simp) (fun z hz => hQ z (List.mem_cons_of_mem _ hz))]

/-- Processing the joined parts again gives the parts back. -/
theorem simplifyComps_joinParts {Q : List Str} (h : PartsOK Q) :
    simplifyComps [] (splitSep (joinParts [] Q)) = Q := by
  by_cases hne : Q = []
  · subst hne
    rfl
  · rw [splitSep_joinParts hne (fun x hx => (h.1 x hx).2)]
    have e := List.dropLast_append_getLast hne
    have hl := (h.1 _ (List.getLast_mem hne)).1
    have hf := foldl_of_stackNF [] Q.dropLast (by simpa using h.2)
    conv_lhs => rw [← e]
    rw [simplifyComps_concat, if_pos (List.length_pos.2 hl), hf]
    simpa using e

theorem simplifyRest_joinParts {Q : List Str} (h : PartsOK Q) :
    simplifyRest (joinParts [] Q) = joinParts [] Q := by
  rw [simplifyRest, simplifyComps_joinParts h]

theorem simplifyRest_idem (s : Str) : simplifyRest (simplifyRest s) = simplifyRest s :=
  simplifyRest_joinParts (partsOK_splitSep s)

/-- A string made of well-shaped parts is a fixed point of `pathSimplify`, also when it
starts with `'~'`. -/
theorem pathSimplify_joinParts {Q : List Str} (h : PartsOK Q) :
    pathSimplify (joinParts [] Q) = joinParts [] Q := by
  cases Q with
  | nil => rfl
  | cons x Q' =>
    have hx := h.1 x (by simp)
    cases x with
    | nil => exact absurd rfl hx.1
    | cons c x' =>
      have hc : c ≠ '/' := fun e => hx.2 (by simp [e])
      by_cases ht : c = '~'
      · subst ht
        cases x' with
        | nil =>
          cases Q' with
          | nil => rfl
          | cons y ys =>
            rw [joinParts_cons_cons]
            simp only [List.singleton_append]
            rw [pathSimplify_tildeSep, simplifyRest_joinParts (partsOK_tail h)]
        | cons d x'' =>
          have hd : d ≠ '/' := fun e => hx.2 (by simp [e])
          rw [pathSimplify_rel, simplifyRest_joinParts h]
          · intro rest e
            cases Q' <;> simp [joinParts] at e
          · intro e
            cases Q' <;> simp [joinParts] at e
          · intro rest e
            cases Q' <;> simp [joinParts] at e <;> exact hd e.1
      · rw [pathSimplify_rel, simplifyRest_joinParts h]
        · intro rest e
          cases Q' <;> simp [joinParts] at e <;> exact hc e.1
        · intro e
          cases Q' <;> simp [joinParts] at e <;> exact ht e.1
        · intro rest e
          cases Q' <;> simp [joinParts] at e <;> exact ht e.1

/-! ## Backward scanning, file-name index, concatenation -/

theorem rfindAux_of_not_mem {ch : Char} {s : Str} (h : ch ∉ s) (i : Nat) :
    rfindAux ch s i = none := by
  induction s generalizing i with
  | nil => rfl
  | cons c cs ih =>
    have hc : c ≠ ch := fun e => h (by simp [e])
    have hcs : ch ∉ cs := fun e => h (List.mem_cons_of_mem _ e)
    simp [rfindAux, ih hcs, hc]

theorem rfindAux_append {ch : Char} (a : Str) {rest : Str} (h : ch ∉ rest) (i : Nat) :
    rfindAux ch (a ++ ch :: rest) i = some (i + a.length) := by
  induction a generalizing i with
  | nil => simp [rfindAux, rfindAux_of_not_mem h]
  | cons c cs ih =>
    have e : rfindAux ch (c :: (cs ++ ch :: rest)) i = some (i + (cs.length + 1)) := by
      rw [rfindAux, ih (i + 1)]
      simp only [Option.some.injEq]
      omega
    simpa using e

theorem rfindAux_none {ch : Char} {s : Str} {i : Nat} (h : rfindAux ch s i = none) :
    ch ∉ s := by
  induction s generalizing i with
  | nil => simp
  | cons c cs ih =>
    simp only [rfindAux] at h
    cases hr : rfindAux ch cs (i + 1) with
    | some j => simp [hr] at h
    | none =>
      simp only [hr] at h
      have hc : c ≠ ch := fun e => by simp [e] at h
      intro hm
      rcases List.mem_cons.1 hm with e | hm
      · exact hc e.symm
      · exact ih hr hm

theorem rfindAux_some {ch : Char} {s : Str} {i p : Nat} (h : rfindAux ch s i = some p) :
    ∃ a rest, s = a ++ ch :: rest ∧ ch ∉ rest ∧ p = i + a.length := by
  induction s generalizing i with
  | nil => simp [rfindAux] at h
  | cons c cs ih =>
    simp only [rfindAux] at h
    cases hr : rfindAux ch cs (i + 1) with
    | some j =>
      simp only [hr, Option.some.injEq] at h
      subst h
      obtain ⟨a, rest, h1, h2, h3⟩ := ih hr
      exact ⟨c :: a, rest, by simp [h1], h2, by simp [h3]; omega⟩
    | none =>
      simp only [hr] at h
      by_cases hc : c = ch
      · simp [hc] at h
        exact ⟨[], cs, by simp [hc], rfindAux_none hr, by simp [h]⟩
      · simp [hc] at h

theorem pathIndexOfFileName_append (d : Str) {f : Str} (hf : '/' ∉ f) :
    pathIndexOfFileName (d ++ '/' :: f) = d.length + 1 := by
  simp [pathIndexOfFileName, strRFind, rfindAux_append d hf 0]

theorem pathIndexOfFileName_of_not_mem {p : Str} (hp : '/' ∉ p) :
    pathIndexOfFileName p = 0 := by
  simp [pathIndexOfFileName, strRFind, rfindAux_of_not_mem hp 0]

theorem pathGetDirectory_append (d : Str) {f : Str} (hf : '/' ∉ f) :
    pathGetDirectory (d ++ '/' :: f) = d := by
  simp [pathGetDirectory, pathIndexOfFileName_append d hf, substr]

theorem pathGetFileName_append (d : Str) {f : Str} (hf : '/' ∉ f) :
    pathGetFileName (d ++ '/' :: f) = f := by
  simp [pathGetFileName, pathIndexOfFileName_append d hf, substrFrom]

theorem charAt_last {d : Str} (hd : d ≠ []) :
    some (charAt d (d.length - 1)) = d.getLast? := by
  have e := List.dropLast_append_getLast hd
  rw [List.getLast?_eq_getLast _ hd]
  conv_lhs => rw [← e]
  simp [charAt, List.getD_eq_getElem?_getD]

theorem pathConcat_of_no_trailing_sep {d f : Str} (hd : d ≠ []) (hlast : d.getLast? ≠ some '/')
    (hf : f ≠ []) : pathConcat d f = d ++ '/' :: f := by
  have h := charAt_last hd
  have hsep : pathIsSeparator (charAt d (d.length - 1)) = false := by
    unfold pathIsSeparator
    split
    · rename_i e
      rw [e] at h
      exact absurd h.symm hlast
    · rfl
  simp [pathConcat, hd, hf, hsep, pathSeparator]

theorem pathConcat_of_trailing_sep {d f : Str} (hd : d ≠ []) (hlast : d.getLast? = some '/')
    (hf : f ≠ []) : pathConcat d f = d ++ f := by
  have h := charAt_last hd
  rw [hlast] at h
  have hsep : pathIsSeparator (charAt d (d.length - 1)) = true := by
    simp at h
    simp [pathIsSeparator, h]
  simp [pathConcat, hd, hf, hsep]

/-! ## The directory walk of `pathCreate` -/

theorem findAux_of_not_mem {ch : Char} {s : Str} (h : ch ∉ s) (i : Nat) :
    findAux ch s i = none := by
  induction s generalizing i with
  | nil => rfl
  | cons c cs ih =>
    have hc : c ≠ ch := fun e => h (by simp [e])
    have hcs : ch ∉ cs := fun e => h (List.mem_cons_of_mem _ e)
    simp [findAux, ih hcs, hc]

theorem findAux_append {ch : Char} {a : Str} (h : ch ∉ a) (rest : Str) (i : Nat) :
    findAux ch (a ++ ch :: rest) i = some (i + a.length) := by
  induction a generalizing i with
  | nil => simp [findAux]
  | cons c cs ih =>
    have hc : c ≠ ch := fun e => h (by simp [e])
    have hcs : ch ∉ cs := fun e => h (List.mem_cons_of_mem _ e)
    have e : findAux ch (c :: (cs ++ ch :: rest)) i = some (i + (cs.length + 1)) := by
      rw [findAux, if_neg hc, ih hcs (i + 1)]
      simp only [Option.some.injEq]
      omega
    simpa using e

theorem length_joinParts_sep (cs : List Str) :
    cs.length ≤ (joinParts pathSeparator cs).length := by
  induction cs with
  | nil => simp [joinParts]
  | cons c cs ih =>
    simp only [joinParts, List.length_append, List.length_cons, pathSeparator,
      List.length_singleton] at ih ⊢
    omega

theorem length_joinParts (cs : List Str) : cs.length ≤ (joinParts [] cs).length + 1 := by
  cases cs with
  | nil => simp [joinParts]
  | cons c cs =>
    have := length_joinParts_sep cs
    simp only [joinParts, List.length_append, List.length_cons, List.length_nil]
    omega

/-- The indexed loop of `pathCreate` issues the `mkdir` calls of the listed prefixes. -/
theorem createLoop_eq (cs : List Str) (c : Str) (P : Str) (fuel : Nat) (result : Bool)
    (fs : FileSystem) (hsep : ∀ x ∈ c :: cs, '/' ∉ x) (hfuel : (c :: cs).length ≤ fuel) :
    createLoop fuel (P ++ '/' :: joinParts [] (c :: cs)) (P.length + 1) result fs =
      runMkdirs result fs (prefixesFrom P (c :: cs)) := by
  induction cs generalizing c P fuel result fs with
  | nil =>
    cases fuel with
    | zero => simp at hfuel
    | succ fuel =>
      have hc : '/' ∉ c := hsep c (by simp)
      rw [joinParts_singleton]
      have hdrop : (P ++ '/' :: c).drop (P.length + 1) = c := by simp
      have hfind : pathIndexOfFirstSeparator (P ++ '/' :: c) (P.length + 1) = none := by
        rw [pathIndexOfFirstSeparator, strFind, hdrop]
        exact findAux_of_not_mem hc _
      rw [createLoop]
      simp only [hfind, prefixesFrom, runMkdirs]
  | cons c' cs ih =>
    cases fuel with
    | zero => simp at hfuel
    | succ fuel =>
      have hc : '/' ∉ c := hsep c (by simp)
      have hdir : P ++ '/' :: joinParts [] (c :: c' :: cs) =
          (P ++ '/' :: c) ++ '/' :: joinParts [] (c' :: cs) := by
        rw [joinParts_cons_cons]
        simp
      have hdrop : (P ++ '/' :: joinParts [] (c :: c' :: cs)).drop (P.length + 1) =
          c ++ '/' :: joinParts [] (c' :: cs) := by
        rw [joinParts_cons_cons]
        simp
      have hfind : pathIndexOfFirstSeparator (P ++ '/' :: joinParts [] (c :: c' :: cs))
          (P.length + 1) = some ((P ++ '/' :: c).length) := by
        rw [pathIndexOfFirstSeparator, strFind, hdrop, findAux_append hc]
        simp
        omega
      have hsub : substr (P ++ '/' :: joinParts [] (c :: c' :: cs)) 0 ((P ++ '/' :: c).length)
          = P ++ '/' :: c := by
        rw [hdir, substr, List.drop_zero, List.take_left]
      have hnext := fun r fs' => ih c' (P ++ '/' :: c) fuel r fs'
        (fun x hx => hsep x (List.mem_cons_of_mem _ hx))
        (by simp only [List.length_cons] at hfuel ⊢; omega)
      rw [← hdir] at hnext
      rw [createLoop]
      simp only [hfind, hsub]
      rw [prefixesFrom, runMkdirs]
      generalize mkdir fs (P ++ '/' :: c) = m
      obtain ⟨r, fs'⟩ := m
      cases r <;> simp only [hnext]

theorem fsParent_append (P : Str) {c : Str} (hc : '/' ∉ c) :
    fsParent (P ++ '/' :: c) = if P = [] then ['/'] else P := by
  rw [fsParent, pathGetDirectory_append P hc]
  cases P <;> simp

/-- Walking the prefixes below an existing directory never fails; it adds exactly the
missing prefixes and reports whether there was one. -/
theorem runMkdirs_prefixes (cs : List Str) (P : Str) (r : Bool) (fs : FileSystem)
    (hsep : ∀ x ∈ cs, '/' ∉ x) (hP : (if P = [] then ['/'] else P) ∈ fs.dirs) :
    ∃ b fs', runMkdirs r fs (prefixesFrom P cs) = Except.ok (b, fs') ∧
      fs'.calls = fs.calls ++ prefixesFrom P cs ∧
      (∀ d, d ∈ fs'.dirs ↔ d ∈ fs.dirs ∨ d ∈ prefixesFrom P cs) ∧
      ((∀ d ∈ prefixesFrom P cs, d ∈ fs.dirs) → b = r ∧ fs'.dirs = fs.dirs) ∧
      (¬ (∀ d ∈ prefixesFrom P cs, d ∈ fs.dirs) → b = true) := by
  induction cs generalizing P r fs with
  | nil => exact ⟨r, fs, by simp [prefixesFrom, runMkdirs]⟩
  | cons c cs ih =>
    have hc : '/' ∉ c := hsep c (by simp)
    have hcs : ∀ x ∈ cs, '/' ∉ x := fun x hx => hsep x (List.mem_cons_of_mem _ hx)
    have hne : P ++ '/' :: c ≠ [] := by simp
    by_cases hin : P ++ '/' :: c ∈ fs.dirs
    · obtain ⟨b, fs', h1, h2, h3, h4, h5⟩ :=
        ih (P ++ '/' :: c) r { dirs := fs.dirs, calls := fs.calls ++ [P ++ '/' :: c] } hcs
          (by simpa [hne] using hin)
      refine ⟨b, fs', ?_, ?_, ?_, ?_, ?_⟩
      · simpa [prefixesFrom, runMkdirs, mkdir, hin] using h1
      · simpa [prefixesFrom] using h2
      · intro d
        rw [h3 d]
        simp only [prefixesFrom, List.mem_cons]
        constructor
        · rintro (h | h)
          · exact Or.inl h
          · exact Or.inr (Or.inr h)
        · rintro (h | h | h)
          · exact Or.inl h
          · exact Or.inl (h ▸ hin)
          · exact Or.inr h
      · intro hall
        exact h4 (fun d hd => hall d (by simp [prefixesFrom, hd]))
      · intro hnot
        apply h5
        intro hall
        apply hnot
        intro d hd
        simp only [prefixesFrom, List.mem_cons] at hd
        rcases hd with rfl | hd
        · exact hin
        · exact hall d hd
    · have hpar : fsParent (P ++ '/' :: c) ∈ fs.dirs := by
        rw [fsParent_append P hc]
        exact hP
      obtain ⟨b, fs', h1, h2, h3, h4, h5⟩ :=
        ih (P ++ '/' :: c) true
          { dirs := fs.dirs ++ [P ++ '/' :: c], calls := fs.calls ++ [P ++ '/' :: c] } hcs
          (by simp [hne])
      have hb : b = true := by
        by_cases hall : ∀ d ∈ prefixesFrom (P ++ '/' :: c) cs,
            d ∈ fs.dirs ++ [P ++ '/' :: c]
        · exact (h4 hall).1
        · exact h5 hall
      refine ⟨b, fs', ?_, ?_, ?_, ?_, ?_⟩
      · simpa [prefixesFrom, runMkdirs, mkdir, hin, hpar] using h1
      · simpa [prefixesFrom] using h2
      · intro d
        rw [h3 d]
        simp only [prefixesFrom, List.mem_cons, List.mem_append, List.mem_singleton]
        tauto
      · intro hall
        exact absurd (hall _ (by simp [prefixesFrom])) hin
      · intro _
        exact hb

theorem chain_of_no_dotdot (S : List Str) (h : ∀ x ∈ S, x ≠ ['.', '.']) :
    List.Chain' (fun a b : Str => b = ['.', '.'] → a = ['.', '.']) S := by
  induction S with
  | nil => exact List.chain'_nil
  | cons x xs ih =>
    rw [List.chain'_cons']
    refine ⟨?_, ih (fun y hy => h y (List.mem_cons_of_mem _ hy))⟩
    intro y hy hyd
    have hmem : y ∈ xs := List.mem_of_mem_head? hy
    exact absurd hyd (h y (List.mem_cons_of_mem _ hmem))

theorem partsOK_of_real {cs : List Str} (h : ∀ c ∈ cs, RealComponent c) : PartsOK cs := by
  refine ⟨fun x hx => ⟨(h x hx).1, (h x hx).2.1⟩, ?_, ?_⟩
  · intro x hx
    have := h x (List.mem_of_mem_dropLast hx)
    exact ⟨this.1, this.2.2.1, this.2.1⟩
  · exact chain_of_no_dotdot _ (fun x hx => (h x (List.mem_of_mem_dropLast hx)).2.2.2)

/-- A root followed by real components is left unchanged by `pathSimplify`. -/
theorem pathSimplify_of_real {cs : List Str} (h : ∀ c ∈ cs, RealComponent c) :
    pathSimplify ('/' :: joinParts [] cs) = '/' :: joinParts [] cs := by
  rw [pathSimplify_root, simplifyRest_joinParts (partsOK_of_real h)]

/-- What does hold of every simplified path: it is a protected prefix (`""`, `"/"` or
`"~/"`) followed by parts joined with the separator, where every part is non-empty and
separator-free and all parts but the last are in accumulator shape. -/
theorem pathSimplify_parts (p : Str) :
    ∃ pre Q, pathSimplify p = pre ++ joinParts [] Q ∧ PartsOK Q ∧
      (pre = [] ∨ pre = ['/'] ∨ pre = ['~', '/']) := by
  by_cases h2 : p = ['~']
  · subst h2
    refine ⟨[], [['~']], by decide, ⟨by decide, stackNF_nil⟩, Or.inl rfl⟩
  by_cases h1 : ∃ rest, p = '/' :: rest
  · obtain ⟨rest, rfl⟩ := h1
    exact ⟨['/'], _, by rw [pathSimplify_root]; rfl, partsOK_splitSep rest, Or.inr (Or.inl rfl)⟩
  by_cases h3 : ∃ rest, p = '~' :: '/' :: rest
  · obtain ⟨rest, rfl⟩ := h3
    exact ⟨['~', '/'], _, by rw [pathSimplify_tildeSep]; rfl, partsOK_splitSep rest,
      Or.inr (Or.inr rfl)⟩
  exact ⟨[], _, by
    rw [pathSimplify_rel p (fun rest e => h1 ⟨rest, e⟩) h2 (fun rest e => h3 ⟨rest, e⟩)]
    rfl, partsOK_splitSep p, Or.inl rfl⟩

/-- A run of `pathCreate`: with `/` and `/a` present, creating `/a/b/c` calls `mkdir` on
`/a`, `/a/b`, `/a/b/c`, adds the last two and returns true. -/
theorem pathCreate_example :
    (pathCreate ['/', 'h'] ['/', 'w'] { dirs := [['/'], ['/', 'a']], calls := [] }
        ['/', 'a', '/', 'b', '/', 'c']).toOption.map (fun r => (r.1, r.2.dirs, r.2.calls)) =
      some (true, [['/'], ['/', 'a'], ['/', 'a', '/', 'b'], ['/', 'a', '/', 'b', '/', 'c']],
        [['/', 'a'], ['/', 'a', '/', 'b'], ['/', 'a', '/', 'b', '/', 'c']]) := by
  decide

/-- The result of the two-argument `pathMakeAbsolute` in each of its four cases. -/
theorem pathMakeAbsolute_cases (home path basePath : Str) :
    (path = ['~'] → pathMakeAbsolute home path basePath = home) ∧
    (∀ rest, path = '~' :: '/' :: rest →
      pathMakeAbsolute home path basePath = pathSimplify (pathConcat home rest)) ∧
    (∀ rest, path = '/' :: rest → pathMakeAbsolute home path basePath = pathSimplify path) ∧
    (pathIsAbsolute path = false →
      pathMakeAbsolute home path basePath = pathSimplify (pathConcat basePath path)) := by
  refine ⟨?_, ?_, ?_, ?_⟩
  · rintro rfl
    simp [pathMakeAbsolute, charAt]
  · rintro rest rfl
    simp [pathMakeAbsolute, charAt, pathIsSeparator, substrFrom]
  · rintro rest rfl
    simp [pathMakeAbsolute, charAt, pathIsSeparator]
  · intro h
    cases path with
    | nil => simp [pathMakeAbsolute, charAt, pathIsSeparator]
    | cons c rest =>
      by_cases ht : c = '~'
      · subst ht
        cases rest with
        | nil => simp [pathIsAbsolute, charAt] at h
        | cons d r =>
          have hd : d ≠ '/' := by
            intro e
            simp [pathIsAbsolute, charAt, pathIsSeparator, e] at h
          simp [pathMakeAbsolute, charAt, pathIsSeparator, hd]
      · have hc : c ≠ '/' := by
          intro e
          simp [pathIsAbsolute, charAt, pathIsSeparator, e] at h
        simp [pathMakeAbsolute, charAt, pathIsSeparator, hc, ht]

/-! ## Components that leave the accumulator unchanged -/

theorem getLast?_cons_of_ne_nil (x : Char) {rest : Str} (h : rest ≠ []) :
    (x :: rest).getLast? = rest.getLast? := by
  cases rest with
  | nil => exact absurd rfl h
  | cons y ys => rw [List.getLast?_cons_cons]

theorem simplifyComps_congr_prefix (n : Nat) (P : Str) (hn : P.length ≤ n) (S : List Str)
    (hP : P = [] ∨ P.getLast? = some '/') :
    ∃ S', ∀ X, simplifyComps S (splitSep (P ++ X)) = simplifyComps S' (splitSep X) := by
  induction n generalizing P S with
  | zero =>
    have : P = [] := List.length_eq_zero.1 (Nat.le_zero.1 hn)
    subst this
    exact ⟨S, fun X => rfl⟩
  | succ n ih =>
    by_cases hnil : P = []
    · subst hnil
      exact ⟨S, fun X => rfl⟩
    · have hlast : P.getLast? = some '/' := hP.resolve_left hnil
      have hmem : '/' ∈ P := List.mem_of_getLast?_eq_some hlast
      cases hf : findAux '/' P 0 with
      | none => exact absurd hmem (findAux_none hf)
      | some pos =>
        obtain ⟨a, rest, h1, h2, -⟩ := findAux_some hf
        subst h1
        have hrest : rest = [] ∨ rest.getLast? = some '/' := by
          by_cases hr : rest = []
          · exact Or.inl hr
          · right
            rw [← hlast]
            rw [List.getLast?_append_of_ne_nil _ (by simp), getLast?_cons_of_ne_nil _ hr]
        have hlen : rest.length ≤ n := by
          simp only [List.length_append, List.length_cons] at hn
          omega
        obtain ⟨S', hS'⟩ := ih rest hlen (simplifyPush S a) hrest
        refine ⟨S', fun X => ?_⟩
        rw [List.append_assoc, List.cons_append, splitSep_append h2,
          simplifyComps_cons _ _ (splitSep_ne_nil _), hS' X]

theorem simplifyPush_pair {c : Str} (hc : RealComponent c) (S : List Str) :
    simplifyPush (simplifyPush S c) ['.', '.'] = S := by
  have h1 : simplifyPush S c = S ++ [c] := by
    unfold simplifyPush
    rw [if_pos ⟨List.length_pos.2 hc.1, hc.2.2.1⟩, if_neg (fun h => hc.2.2.2 h.1)]
  rw [h1]
  unfold simplifyPush
  have hne : (some c : Option Str) ≠ some ['.', '.'] := fun e => hc.2.2.2 (Option.some.inj e)
  simp [hne]

theorem simplifyPush_dot (S : List Str) : simplifyPush S ['.'] = S := by
  simp [simplifyPush]

theorem simplifyPush_empty (S : List Str) : simplifyPush S [] = S := by
  simp [simplifyPush]

theorem simplifyComps_pair {c : Str} (hc : RealComponent c) (R : Str) (S : List Str) :
    simplifyComps S (splitSep (c ++ ['/', '.', '.', '/'] ++ R)) =
      simplifyComps S (splitSep R) := by
  have hdd : '/' ∉ (['.', '.'] : Str) := by decide
  have e : c ++ ['/', '.', '.', '/'] ++ R = c ++ '/' :: (['.', '.'] ++ '/' :: R) := by simp
  rw [e, splitSep_append hc.2.1, splitSep_append hdd,
    simplifyComps_cons _ _ (by simp), simplifyComps_cons _ _ (splitSep_ne_nil _),
    simplifyPush_pair hc]

theorem simplifyComps_dot (R : Str) (S : List Str) :
    simplifyComps S (splitSep (['.', '/'] ++ R)) = simplifyComps S (splitSep R) := by
  have hd : '/' ∉ (['.'] : Str) := by decide
  have e : (['.', '/'] ++ R : Str) = ['.'] ++ '/' :: R := by simp
  rw [e, splitSep_append hd, simplifyComps_cons _ _ (splitSep_ne_nil _), simplifyPush_dot]

theorem simplifyComps_emptyComp (R : Str) (S : List Str) :
    simplifyComps S (splitSep (['/'] ++ R)) = simplifyComps S (splitSep R) := by
  have hd : '/' ∉ ([] : Str) := by decide
  have e : (['/'] ++ R : Str) = [] ++ '/' :: R := by simp
  rw [e, splitSep_append hd, simplifyComps_cons _ _ (splitSep_ne_nil _), simplifyPush_empty]

theorem simplifyRest_congr (P Y R : Str) (hP : P = [] ∨ P.getLast? = some '/')
    (h : ∀ S, simplifyComps S (splitSep Y) = simplifyComps S (splitSep R)) :
    simplifyRest (P ++ Y) = simplifyRest (P ++ R) := by
  obtain ⟨S', hS'⟩ := simplifyComps_congr_prefix P.length P (Nat.le_refl _) [] hP
  rw [simplifyRest, simplifyRest, hS' Y, hS' R, h S']

theorem pathSimplify_of_head (p : Str) (h1 : p.head? ≠ some '/') (h2 : p.head? ≠ some '~') :
    pathSimplify p = simplifyRest p := by
  apply pathSimplify_rel
  · rintro rest rfl
    simp at h1
  · rintro rfl
    simp at h2
  · rintro rest rfl
    simp at h2

/-- Replacing, after a prefix that ends at a component boundary, a text by another one
with the same effect on every accumulator does not change the simplified path. -/
theorem pathSimplify_congr (P Y R : Str) (hP : P = [] ∨ P.getLast? = some '/')
    (h : ∀ S, simplifyComps S (splitSep Y) = simplifyComps S (splitSep R))
    (hPY : (P ++ Y).head? ≠ some '~') (hPR : (P ++ R).head? ≠ some '~')
    (hY : P = [] → Y.head? ≠ some '/') (hR : P = [] → R.head? ≠ some '/') :
    pathSimplify (P ++ Y) = pathSimplify (P ++ R) := by
  cases P with
  | nil =>
    simp only [List.nil_append] at hPY hPR ⊢
    rw [pathSimplify_of_head Y (hY rfl) hPY, pathSimplify_of_head R (hR rfl) hPR]
    exact simplifyRest_congr [] Y R (Or.inl rfl) h
  | cons x P' =>
    by_cases hx : x = '/'
    · subst hx
      have hP' : P' = [] ∨ P'.getLast? = some '/' := by
        by_cases hnil : P' = []
        · exact Or.inl hnil
        · right
          have := hP.resolve_left (by simp)
          rwa [getLast?_cons_of_ne_nil _ hnil] at this
      rw [List.cons_append, List.cons_append, pathSimplify_root, pathSimplify_root,
        simplifyRest_congr P' Y R hP' h]
    · have ht : x ≠ '~' := by
        intro e
        simp [e] at hPY
      rw [pathSimplify_of_head _ (by simpa using hx) (by simpa using ht),
        pathSimplify_of_head _ (by simpa using hx) (by simpa using ht)]
      exact simplifyRest_congr _ Y R hP h

/-! ## The range checks never fire -/

theorem strFind_some_lt {s : Str} {ch : Char} {start pos : Nat}
    (h : strFind s ch start = some pos) : start ≤ pos ∧ pos < s.length := by
  obtain ⟨a, rest, h1, -, h3⟩ := strFind_some h
  have := congrArg List.length h1
  simp only [List.length_drop, List.length_append, List.length_cons] at this
  omega

theorem strRFind_some_lt {s : Str} {ch : Char} {pos : Nat}
    (h : strRFind s ch = some pos) : pos < s.length := by
  obtain ⟨a, rest, h1, -, h3⟩ := rfindAux_some h
  subst h1
  simp only [List.length_append, List.length_cons]
  omega

theorem pathIndexOfFileName_le (path : Str) : pathIndexOfFileName path ≤ path.length := by
  unfold pathIndexOfFileName
  cases h : strRFind path '/' with
  | none => simp
  | some pos =>
    have := strRFind_some_lt h
    simp only
    omega

/-- With enough fuel and the offset in range, the checked loop returns what the unchecked
loop computes: no iteration takes a substring out of range. -/
theorem simplifyLoopC_eq (fuel : Nat) (path : Str) (off : Nat) (parts : List Str)
    (hoff : off ≤ path.length) (hfuel : path.length - off < fuel) :
    simplifyLoopC fuel path off parts = some (simplifyLoop fuel path off parts) := by
  induction fuel generalizing off parts with
  | zero => omega
  | succ fuel ih =>
    unfold simplifyLoopC simplifyLoop
    cases hf : pathIndexOfFirstSeparator path off with
    | none => simp [substrFromC, substrFrom, hoff]
    | some pos =>
      have hlt := strFind_some_lt hf
      simp only [substrC, substr, hoff, if_true]
      exact ih (pos + 1) _ (by omega) (by omega)

/-- The check of the loop is effective: an iteration entered with the scan offset beyond
the end of the string fails. -/
theorem simplifyLoopC_out_of_range (fuel : Nat) (path : Str) (off : Nat) (parts : List Str)
    (hoff : path.length < off) : simplifyLoopC (fuel + 1) path off parts = none := by
  have hdrop : path.drop off = [] := List.drop_eq_nil_of_le (Nat.le_of_lt hoff)
  have hfind : pathIndexOfFirstSeparator path off = none := by
    simp [pathIndexOfFirstSeparator, strFind, hdrop, findAux]
  have hnot : ¬ off ≤ path.length := Nat.not_le.2 hoff
  simp [simplifyLoopC, hfind, substrFromC, hnot]

theorem pathIsAbsoluteC_eq (path : Str) : pathIsAbsoluteC path = some (pathIsAbsolute path) := by
  cases path with
  | nil => simp [pathIsAbsoluteC, pathIsAbsolute, charAtC]
  | cons c rest =>
    by_cases ht : c = '~'
    · subst ht
      cases rest with
      | nil => simp [pathIsAbsoluteC, pathIsAbsolute, charAtC, charAt]
      | cons d r => simp [pathIsAbsoluteC, pathIsAbsolute, charAtC, charAt]
    · simp [pathIsAbsoluteC, pathIsAbsolute, charAtC, charAt, ht]

theorem pathSimplifyC_eq (path : Str) : pathSimplifyC path = some (pathSimplify path) := by
  have h0 := simplifyLoopC_eq (path.length + 1) path 0 [] (Nat.zero_le _) (by omega)
  cases path with
  | nil => rfl
  | cons c rest =>
    have h1 := simplifyLoopC_eq ((c :: rest).length + 1) (c :: rest) 1 []
      (by simp) (by omega)
    by_cases ht : c = '~'
    · subst ht
      cases rest with
      | nil => simp [pathSimplifyC, pathSimplify, charAtC, charAt]
      | cons d r =>
        have h2 := simplifyLoopC_eq (('~' :: d :: r).length + 1) ('~' :: d :: r) 2 []
          (by simp) (by omega)
        simp only [List.length_cons] at h0 h2
        by_cases hd : pathIsSeparator d = true
        · simp [pathSimplifyC, pathSimplify, charAtC, charAt, hd, h2]
        · simp [pathSimplifyC, pathSimplify, charAtC, charAt, hd, h0]
    · simp only [List.length_cons] at h0 h1
      by_cases hc : pathIsSeparator c = true
      · simp [pathSimplifyC, pathSimplify, charAtC, charAt, ht, hc, h1]
      · simp [pathSimplifyC, pathSimplify, charAtC, charAt, ht, hc, h0]

theorem pathConcatC_eq (path1 path2 : Str) :
    pathConcatC path1 path2 = some (pathConcat path1 path2) := by
  unfold pathConcatC pathConcat
  split
  · rfl
  · split
    · rfl
    · have hle : path1.length - 1 ≤ path1.length := Nat.sub_le _ _
      simp only [charAtC, hle, if_true, Option.map_some']

theorem pathGetDirectoryC_eq (path : Str) :
    pathGetDirectoryC path = some (pathGetDirectory path) := by
  simp [pathGetDirectoryC, pathGetDirectory, substrC, substr]

theorem pathGetFileNameC_eq (path : Str) :
    pathGetFileNameC path = some (pathGetFileName path) := by
  simp [pathGetFileNameC, pathGetFileName, substrFromC, substrFrom, pathIndexOfFileName_le]

theorem pathGetShortFileExtensionC_eq (path : Str) :
    pathGetShortFileExtensionC path = some (pathGetShortFileExtension path) := by
  unfold pathGetShortFileExtensionC pathGetShortFileExtension
  cases h : strRFind path '.' with
  | none => rfl
  | some pos =>
    have hlt := Nat.le_of_lt (strRFind_some_lt h)
    simp only
    split
    · rfl
    · simp [substrFromC, substrFrom, hlt]

theorem pathGetFullFileExtensionC_eq (path : Str) :
    pathGetFullFileExtensionC path = some (pathGetFullFileExtension path) := by
  cases h : strFind path '.' (pathIndexOfFileName path) with
  | none => simp only [pathGetFullFileExtensionC, pathGetFullFileExtension, h]
  | some pos =>
    have hlt := Nat.le_of_lt (strFind_some_lt h).2
    simp only [pathGetFullFileExtensionC, pathGetFullFileExtension, h, substrFromC,
      substrFrom, hlt, if_true]

theorem pathReplaceFullFileExtensionC_eq (path ext : Str) :
    pathReplaceFullFileExtensionC path ext = some (pathReplaceFullFileExtension path ext) := by
  cases h : strFind path '.' (pathIndexOfFileName path) with
  | none => simp only [pathReplaceFullFileExtensionC, pathReplaceFullFileExtension, h]
  | some pos =>
    simp [pathReplaceFullFileExtensionC, pathReplaceFullFileExtension, h, substrC, substr]

/-- The file-name component is the text after the last separator: the text before it is
empty or ends with a separator, and the file name itself contains none. -/
theorem pathGetFileName_split (p : Str) :
    p = p.take (pathIndexOfFileName p) ++ pathGetFileName p ∧
      (p.take (pathIndexOfFileName p) = [] ∨
        (p.take (pathIndexOfFileName p)).getLast? = some '/') ∧
      '/' ∉ pathGetFileName p := by
  refine ⟨by simp [pathGetFileName, substrFrom], ?_⟩
  cases hr : strRFind p '/' with
  | none =>
    have hno : '/' ∉ p := rfindAux_none hr
    have hidx : pathIndexOfFileName p = 0 := pathIndexOfFileName_of_not_mem hno
    refine ⟨Or.inl (by simp [hidx]), ?_⟩
    simpa [pathGetFileName, substrFrom, hidx] using hno
  | some pos =>
    obtain ⟨a, rest, h1, h2, -⟩ := rfindAux_some hr
    subst h1
    have hidx := pathIndexOfFileName_append a h2
    refine ⟨Or.inr ?_, ?_⟩
    · have e : (a ++ '/' :: rest).take (a.length + 1) = a ++ ['/'] := by
        have e2 : a ++ '/' :: rest = (a ++ ['/']) ++ rest := by simp
        have e3 : a.length + 1 = (a ++ ['/']).length := by simp
        rw [e2, e3, List.take_left]
      rw [hidx, e, List.getLast?_concat]
    · rw [pathGetFileName_append a h2]
      exact h2

/-! ## Claims -/

/-- C1: `pathSimplify` is idempotent: simplifying an already simplified path returns it
unchanged, for every path string (root prefix, `~` and `~/` prefixes, trailing `.` or
`..`, and relative paths whose simplified form begins with `~/` included). -/
theorem pathSimplify_idempotent (p : Str) :
    pathSimplify (pathSimplify p) = pathSimplify p := by
  by_cases h2 : p = ['~']
  · subst h2
    rfl
  by_cases h1 : ∃ rest, p = '/' :: rest
  · obtain ⟨rest, rfl⟩ := h1
    rw [pathSimplify_root, pathSimplify_root, simplifyRest_idem]
  by_cases h3 : ∃ rest, p = '~' :: '/' :: rest
  · obtain ⟨rest, rfl⟩ := h3
    rw [pathSimplify_tildeSep, pathSimplify_tildeSep, simplifyRest_idem]
  rw [pathSimplify_rel p (fun rest e => h1 ⟨rest, e⟩) h2 (fun rest e => h3 ⟨rest, e⟩),
    simplifyRest]
  exact pathSimplify_joinParts (partsOK_splitSep p)

/-- C2: the last component of a path reaches `parts` without the `.` and `..` handling:
`pathSimplify("a/.")` is `"a/."`, whose components are `a` and `.`, and
`pathSimplify("a/b/..")` is `"a/b/.."`, where `..` directly follows the real component
`b`, so the simplified-form invariant does not hold for them. -/
theorem pathSimplify_trailing_dot_kept :
    pathSimplify ['a', '/', '.'] = ['a', '/', '.'] ∧
      splitSep (pathSimplify ['a', '/', '.']) = [['a'], ['.']] ∧
      pathSimplify ['a', '/', 'b', '/', '.', '.'] = ['a', '/', 'b', '/', '.', '.'] ∧
      splitSep (pathSimplify ['a', '/', 'b', '/', '.', '.']) = [['a'], ['b'], ['.', '.']] := by
  decide

/-- C3 (as stated, refuted): `pathSimplify("/../a")` is `"/../a"`, not `"/a"`. -/
theorem simplify_root_parent_counterexample :
    pathSimplify ['/', '.', '.', '/', 'a'] = ['/', '.', '.', '/', 'a'] ∧
      pathSimplify ['/', '.', '.', '/', 'a'] ≠ ['/', 'a'] := by
  decide

/-- C3 (amended): a `..` directly after the root is kept by `pathSimplify`, since the
accumulator is empty there: for every real component name `c`,
`pathSimplify("/../" ++ c) = "/../" ++ c`. -/
theorem pathSimplify_root_dotdot_kept (c : Str) (hc : RealComponent c) :
    pathSimplify (['/', '.', '.', '/'] ++ c) = ['/', '.', '.', '/'] ++ c := by
  have e : (['/', '.', '.', '/'] ++ c : Str) = '/' :: (['.', '.'] ++ '/' :: c) := by simp
  have hdd : '/' ∉ (['.', '.'] : Str) := by decide
  have hlen : c.length > 0 := List.length_pos.2 hc.1
  rw [e, pathSimplify_root, simplifyRest, splitSep_append hdd, splitSep_of_not_mem hc.2.1]
  simp [simplifyComps, simplifyPush, joinParts, pathSeparator, hlen]

theorem pathSimplify_root_dotdot_kept_witness :
    RealComponent ['a'] ∧
      pathSimplify (['/', '.', '.', '/'] ++ ['a']) = ['/', '.', '.', '/'] ++ ['a'] :=
  ⟨by unfold RealComponent; decide,
    pathSimplify_root_dotdot_kept ['a'] (by unfold RealComponent; decide)⟩

/-- C4 (as stated, refuted): with the directory `"a"` and the empty file name, which
contains no separator, `pathConcat` returns `"a"`, whose directory part is `""` and whose
file name is `"a"`. -/
theorem concat_empty_file_counterexample :
    (['a'] : Str) ≠ [] ∧ (['a'] : Str).getLast? ≠ some '/' ∧ '/' ∉ ([] : Str) ∧
      pathGetDirectory (pathConcat ['a'] []) ≠ ['a'] ∧
      pathGetFileName (pathConcat ['a'] []) ≠ [] := by
  decide

/-- C4 (amended): for every non-empty directory string `d` that does not end in a
separator and every non-empty file name `f` without separator,
`pathGetDirectory(pathConcat(d, f)) = d` and `pathGetFileName(pathConcat(d, f)) = f`. -/
theorem pathConcat_roundtrip (d f : Str) (hd : d ≠ []) (hlast : d.getLast? ≠ some '/')
    (hf : '/' ∉ f) (hne : f ≠ []) :
    pathGetDirectory (pathConcat d f) = d ∧ pathGetFileName (pathConcat d f) = f := by
  rw [pathConcat_of_no_trailing_sep hd hlast hne]
  exact ⟨pathGetDirectory_append d hf, pathGetFileName_append d hf⟩

theorem pathConcat_roundtrip_witness :
    pathGetDirectory (pathConcat ['a', '/', 'b'] ['c', '.', 'h']) = ['a', '/', 'b'] ∧
      pathGetFileName (pathConcat ['a', '/', 'b'] ['c', '.', 'h']) = ['c', '.', 'h'] :=
  pathConcat_roundtrip ['a', '/', 'b'] ['c', '.', 'h'] (by decide) (by decide) (by decide)
    (by decide)

/-- C5 (as stated, refuted): `pathGetDirectory("/f")` is the empty string, not `"/"`. -/
theorem directory_of_root_file_counterexample :
    '/' ∉ (['f'] : Str) ∧ pathGetDirectory (['/'] ++ ['f']) = [] ∧
      pathGetDirectory (['/'] ++ ['f']) ≠ ['/'] := by
  decide

/-- C5 (amended): `pathGetDirectory` drops the trailing separator of the directory part,
the root included: for every file name `f` without separator,
`pathGetDirectory("/" ++ f)` is the empty string, and for `d` non-empty and not ending in
a separator `pathGetDirectory(d ++ "/" ++ f) = d`. -/
theorem pathGetDirectory_drops_separator (f d : Str) (hf : '/' ∉ f) (_hd : d ≠ [])
    (_hlast : d.getLast? ≠ some '/') :
    pathGetDirectory (['/'] ++ f) = [] ∧ pathGetDirectory (d ++ ['/'] ++ f) = d := by
  refine ⟨?_, ?_⟩
  · simpa using pathGetDirectory_append [] hf
  · simpa using pathGetDirectory_append d hf

theorem pathGetDirectory_drops_separator_witness :
    pathGetDirectory (['/'] ++ ['f', '.', 'c']) = [] ∧
      pathGetDirectory (['/', 'u', 's', 'r'] ++ ['/'] ++ ['f', '.', 'c']) = ['/', 'u', 's', 'r'] :=
  pathGetDirectory_drops_separator ['f', '.', 'c'] ['/', 'u', 's', 'r'] (by decide) (by decide)
    (by decide)

/-- C6: `pathConcat(path1, path2)` is `path2` when `path1` is empty, `path1` when `path2`
is empty, and otherwise `path1 ++ path2` when `path1` ends in a separator and
`path1 ++ "/" ++ path2` when it does not; in particular `concat("a/","b")` and
`concat("a","b")` are `"a/b"`, `concat("","b")` is `"b"` and `concat("a","")` is `"a"`. -/
theorem pathConcat_spec :
    (∀ path1 path2 : Str,
      (path1 = [] → pathConcat path1 path2 = path2) ∧
      (path2 = [] → pathConcat path1 path2 = path1) ∧
      (path1 ≠ [] → path2 ≠ [] → path1.getLast? = some '/' →
        pathConcat path1 path2 = path1 ++ path2) ∧
      (path1 ≠ [] → path2 ≠ [] → path1.getLast? ≠ some '/' →
        pathConcat path1 path2 = path1 ++ pathSeparator ++ path2)) ∧
    pathConcat ['a', '/'] ['b'] = ['a', '/', 'b'] ∧
    pathConcat ['a'] ['b'] = ['a', '/', 'b'] ∧
    pathConcat [] ['b'] = ['b'] ∧
    pathConcat ['a'] [] = ['a'] := by
  refine ⟨fun path1 path2 => ⟨?_, ?_, ?_, ?_⟩, by decide, by decide, by decide, by decide⟩
  · intro h
    simp [pathConcat, h]
  · intro h
    cases path1 <;> simp [pathConcat, h]
  · intro h1 h2 h3
    exact pathConcat_of_trailing_sep h1 h3 h2
  · intro h1 h2 h3
    simpa [pathSeparator] using pathConcat_of_no_trailing_sep h1 h3 h2

/-- C7: for the absolute path `"~"` and the home directory `"/home/u/"` the two-argument
`pathMakeAbsolute` returns the home directory as it is, `"/home/u/"`, whatever the base
path, while its simplified form is `"/home/u"`; the path `"~/"` does give `"/home/u"`. -/
theorem pathMakeAbsolute_tilde_not_simplified :
    pathIsAbsolute ['~'] = true ∧
      pathMakeAbsolute ['/', 'h', 'o', 'm', 'e', '/', 'u', '/'] ['~'] ['/', 'b'] =
        ['/', 'h', 'o', 'm', 'e', '/', 'u', '/'] ∧
      pathSimplify ['/', 'h', 'o', 'm', 'e', '/', 'u', '/'] = ['/', 'h', 'o', 'm', 'e', '/', 'u'] ∧
      pathMakeAbsolute ['/', 'h', 'o', 'm', 'e', '/', 'u', '/'] ['~', '/'] ['/', 'b'] =
        ['/', 'h', 'o', 'm', 'e', '/', 'u'] := by
  decide

/-- C8: `pathReplaceFullFileExtension(p, ext)` swaps exactly the full extension.  The
file-name component of `p` is the text after its last separator (`p = dir ++
pathGetFileName(p)` with `dir` empty or ending in a separator and no separator in the file
name).  There is a stem `s` with `p = s ++ pathGetFullFileExtension(p)` and the result is
`s ++ ext`: when the file name has no `'.'` the full extension is empty, the stem is `p`
and `ext` is appended, even if a directory contains a `'.'`; otherwise the file name is
`a ++ "." ++ t` with no `'.'` in `a`, the full extension is `"." ++ t`, the suffix that
starts at the first `'.'` of the file name, and the stem is `dir ++ a`.  Replacing the full
extension by itself returns `p`.  `("a.tar.gz", ".zip")` gives `"a.zip"`,
`("noext", ".txt")` gives `"noext.txt"`, `("dir.d/file", ".x")` gives `"dir.d/file.x"` and
`("d.x/a.tar.gz", ".zip")` gives `"d.x/a.zip"`. -/
theorem pathReplaceFullFileExtension_spec :
    (∀ p ext : Str, ∃ dir s : Str,
      p = dir ++ pathGetFileName p ∧
      (dir = [] ∨ dir.getLast? = some '/') ∧
      '/' ∉ pathGetFileName p ∧
      p = s ++ pathGetFullFileExtension p ∧
      pathReplaceFullFileExtension p ext = s ++ ext ∧
      (('.' ∉ pathGetFileName p ∧ pathGetFullFileExtension p = [] ∧ s = p ∧
          pathReplaceFullFileExtension p ext = p ++ ext) ∨
        ∃ a t : Str, pathGetFileName p = a ++ '.' :: t ∧ '.' ∉ a ∧
          pathGetFullFileExtension p = '.' :: t ∧ s = dir ++ a ∧
          pathReplaceFullFileExtension p ext = dir ++ a ++ ext)) ∧
    (∀ p : Str, pathReplaceFullFileExtension p (pathGetFullFileExtension p) = p) ∧
    pathReplaceFullFileExtension ['a', '.', 't', 'a', 'r', '.', 'g', 'z'] ['.', 'z', 'i', 'p'] =
      ['a', '.', 'z', 'i', 'p'] ∧
    pathReplaceFullFileExtension ['n', 'o', 'e', 'x', 't'] ['.', 't', 'x', 't'] =
      ['n', 'o', 'e', 'x', 't', '.', 't', 'x', 't'] ∧
    pathGetFullFileExtension ['d', 'i', 'r', '.', 'd', '/', 'f', 'i', 'l', 'e'] = [] ∧
    pathReplaceFullFileExtension ['d', 'i', 'r', '.', 'd', '/', 'f', 'i', 'l', 'e'] ['.', 'x'] =
      ['d', 'i', 'r', '.', 'd', '/', 'f', 'i', 'l', 'e', '.', 'x'] ∧
    pathGetFullFileExtension ['d', '.', 'x', '/', 'a', '.', 't', 'a', 'r', '.', 'g', 'z'] =
      ['.', 't', 'a', 'r', '.', 'g', 'z'] ∧
    pathReplaceFullFileExtension ['d', '.', 'x', '/', 'a', '.', 't', 'a', 'r', '.', 'g', 'z']
        ['.', 'z', 'i', 'p'] = ['d', '.', 'x', '/', 'a', '.', 'z', 'i', 'p'] := by
  have main : ∀ p ext : Str, ∃ dir s : Str,
      p = dir ++ pathGetFileName p ∧
      (dir = [] ∨ dir.getLast? = some '/') ∧
      '/' ∉ pathGetFileName p ∧
      p = s ++ pathGetFullFileExtension p ∧
      pathReplaceFullFileExtension p ext = s ++ ext ∧
      (('.' ∉ pathGetFileName p ∧ pathGetFullFileExtension p = [] ∧ s = p ∧
          pathReplaceFullFileExtension p ext = p ++ ext) ∨
        ∃ a t : Str, pathGetFileName p = a ++ '.' :: t ∧ '.' ∉ a ∧
          pathGetFullFileExtension p = '.' :: t ∧ s = dir ++ a ∧
          pathReplaceFullFileExtension p ext = dir ++ a ++ ext) := by
    intro p ext
    obtain ⟨hsplit, hdir, hfile⟩ := pathGetFileName_split p
    cases hf : strFind p '.' (pathIndexOfFileName p) with
    | none =>
      have hno := strFind_none hf
      have hfull : pathGetFullFileExtension p = [] := by
        simp [pathGetFullFileExtension, hf]
      have hrep : pathReplaceFullFileExtension p ext = p ++ ext := by
        simp [pathReplaceFullFileExtension, hf]
      refine ⟨_, p, hsplit, hdir, hfile, by simp [hfull], hrep,
        Or.inl ⟨by simpa [pathGetFileName, substrFrom] using hno, hfull, rfl, hrep⟩⟩
    | some pos =>
      obtain ⟨a, rest, h1, h2, h3⟩ := strFind_some hf
      have hdrop : p.drop pos = '.' :: rest := by
        have : p.drop pos = (p.drop (pathIndexOfFileName p)).drop a.length := by
          rw [List.drop_drop, h3]
        rw [this, h1]
        simp
      have htake : p.take pos = p.take (pathIndexOfFileName p) ++ a := by
        rw [h3, List.take_add, h1]
        simp
      have hfull : pathGetFullFileExtension p = '.' :: rest := by
        simp [pathGetFullFileExtension, substrFrom, hf, hdrop]
      have hrep : pathReplaceFullFileExtension p ext = p.take pos ++ ext := by
        simp [pathReplaceFullFileExtension, substr, hf]
      refine ⟨_, p.take pos, hsplit, hdir, hfile, ?_, hrep,
        Or.inr ⟨a, rest, ?_, h2, hfull, htake, ?_⟩⟩
      · rw [hfull, ← hdrop, List.take_append_drop]
      · simpa [pathGetFileName, substrFrom] using h1
      · rw [hrep, htake]
  refine ⟨main, ?_, by decide, by decide, by decide, by decide, by decide, by decide⟩
  intro p
  obtain ⟨_, s, _, _, _, h1, h2, _⟩ := main p (pathGetFullFileExtension p)
  rw [h2, ← h1]

/-- C9: `pathGetShortFileExtension(p)` depends only on the file-name component: it is empty
when `pathGetFileName(p)` contains no `'.'`, and otherwise the suffix of
`pathGetFileName(p)` that starts at its last `'.'`; `"a.tar.gz"` gives `".gz"`, `"noext"`
gives `""` and `"dir.d/file"` gives `""`. -/
theorem pathGetShortFileExtension_spec :
    (∀ p : Str,
      ('.' ∉ pathGetFileName p ∧ pathGetShortFileExtension p = []) ∨
        ∃ a t : Str, pathGetFileName p = a ++ '.' :: t ∧ '.' ∉ t ∧
          pathGetShortFileExtension p = '.' :: t) ∧
    pathGetShortFileExtension ['a', '.', 't', 'a', 'r', '.', 'g', 'z'] = ['.', 'g', 'z'] ∧
    pathGetShortFileExtension ['n', 'o', 'e', 'x', 't'] = [] ∧
    pathGetShortFileExtension ['d', 'i', 'r', '.', 'd', '/', 'f', 'i', 'l', 'e'] = [] := by
  refine ⟨?_, by decide, by decide, by decide⟩
  intro p
  cases hr : strRFind p '.' with
  | none =>
    have hno : '.' ∉ p := rfindAux_none hr
    left
    refine ⟨?_, by simp [pathGetShortFileExtension, hr]⟩
    intro hm
    exact hno (List.mem_of_mem_drop hm)
  | some pos =>
    obtain ⟨a, t, h1, h2, h3⟩ := rfindAux_some hr
    simp only [Nat.zero_add] at h3
    subst h1
    generalize hn : pathIndexOfFileName (a ++ '.' :: t) = n
    have hfile : pathGetFileName (a ++ '.' :: t) = (a ++ '.' :: t).drop n := by
      rw [pathGetFileName, substrFrom, hn]
    have hshort : pathGetShortFileExtension (a ++ '.' :: t) =
        if pos < n then [] else (a ++ '.' :: t).drop pos := by
      simp only [pathGetShortFileExtension, hr, hn, substrFrom]
    rw [hfile, hshort]
    by_cases hlt : pos < n
    · left
      refine ⟨?_, by simp [hlt]⟩
      intro hm
      apply h2
      have hk : n = a.length + (1 + (n - (a.length + 1))) := by omega
      rw [hk, List.drop_append] at hm
      simp only [Nat.add_comm 1, List.drop_succ_cons] at hm
      exact List.mem_of_mem_drop hm
    · right
      refine ⟨a.drop n, t, List.drop_append_of_le_length (by omega), h2, ?_⟩
      rw [if_neg hlt, h3]
      simp

/-- C10: on a filesystem that contains the root, `pathCreate` of the simplified absolute
path `/c1/.../cn` (real components, `n >= 1`) returns a value; it calls `mkdir` on the
prefixes `/c1`, `/c1/c2`, ..., `/c1/.../cn` in that order; afterwards the directories are
the former ones and the prefixes, and no other; it returns false with the directories
unchanged when every prefix already existed, and true otherwise. -/
theorem pathCreate_spec (home cwd : Str) (fs : FileSystem) (cs : List Str) (hne : cs ≠ [])
    (hreal : ∀ c ∈ cs, RealComponent c) (hroot : ['/'] ∈ fs.dirs) :
    ∃ b fs', pathCreate home cwd fs ('/' :: joinParts [] cs) = Except.ok (b, fs') ∧
      fs'.calls = fs.calls ++ prefixesFrom [] cs ∧
      (∀ d, d ∈ fs'.dirs ↔ d ∈ fs.dirs ∨ d ∈ prefixesFrom [] cs) ∧
      ((∀ d ∈ prefixesFrom [] cs, d ∈ fs.dirs) → b = false ∧ fs'.dirs = fs.dirs) ∧
      (¬ (∀ d ∈ prefixesFrom [] cs, d ∈ fs.dirs) → b = true) := by
  have hsep : ∀ x ∈ cs, '/' ∉ x := fun x hx => (hreal x hx).2.1
  have habs : pathMakeAbsolute1 home cwd ('/' :: joinParts [] cs) = '/' :: joinParts [] cs := by
    rw [pathMakeAbsolute1, (pathMakeAbsolute_cases home _ cwd).2.2.1 _ rfl,
      pathSimplify_of_real hreal]
  have hloop : pathCreate home cwd fs ('/' :: joinParts [] cs) =
      runMkdirs false fs (prefixesFrom [] cs) := by
    cases cs with
    | nil => exact absurd rfl hne
    | cons c cs =>
      have h := createLoop_eq cs c [] (('/' :: joinParts [] (c :: cs)).length + 1) false fs
        hsep (by
          have := length_joinParts (c :: cs)
          simp only [List.length_cons] at this ⊢
          omega)
      simp only [List.nil_append, List.length_nil, Nat.zero_add] at h
      simp only [pathCreate, habs, charAt, pathIsSeparator]
      simpa using h
  rw [hloop]
  exact runMkdirs_prefixes cs [] false fs hsep (by simpa using hroot)

theorem pathCreate_spec_witness :
    ∃ b fs', pathCreate ['/', 'h'] ['/', 'w'] { dirs := [['/'], ['/', 'a']], calls := [] }
        ('/' :: joinParts [] [['a'], ['b'], ['c']]) = Except.ok (b, fs') ∧
      fs'.calls = [] ++ prefixesFrom [] [['a'], ['b'], ['c']] ∧
      (∀ d, d ∈ fs'.dirs ↔ d ∈ [['/'], ['/', 'a']] ∨ d ∈ prefixesFrom [] [['a'], ['b'], ['c']]) ∧
      ((∀ d ∈ prefixesFrom [] [['a'], ['b'], ['c']], d ∈ [['/'], ['/', 'a']]) →
        b = false ∧ fs'.dirs = [['/'], ['/', 'a']]) ∧
      (¬ (∀ d ∈ prefixesFrom [] [['a'], ['b'], ['c']], d ∈ [['/'], ['/', 'a']]) → b = true) :=
  pathCreate_spec ['/', 'h'] ['/', 'w'] { dirs := [['/'], ['/', 'a']], calls := [] }
    [['a'], ['b'], ['c']] (by decide) (by decide) (by decide)

/-- C12: an interior `c/..` pair cancels in `pathSimplify`: for `P` empty or ending with
a separator, `c` a real component, `R` not starting with a separator, and neither `P ++ c`
nor `P ++ R` starting with `'~'`, `pathSimplify(P ++ c ++ "/../" ++ R) = pathSimplify(P ++ R)`.
A `.` component is skipped in the same way, and so is an empty component (the text between
two adjacent separators, so `P` is non-empty there); the loop leaves `parts` unchanged on
both; and `pathSimplify("a/./b/../c") = "a/c"`. -/
theorem pathSimplify_cancel_pair (P c R : Str) (hP : P = [] ∨ P.getLast? = some '/')
    (hc : RealComponent c) (hR : R.head? ≠ some '/')
    (hPc : (P ++ c).head? ≠ some '~') (hPR : (P ++ R).head? ≠ some '~') :
    pathSimplify (P ++ c ++ ['/', '.', '.', '/'] ++ R) = pathSimplify (P ++ R) ∧
    pathSimplify (P ++ ['.', '/'] ++ R) = pathSimplify (P ++ R) ∧
    (P ≠ [] → pathSimplify (P ++ ['/'] ++ R) = pathSimplify (P ++ R)) ∧
    (∀ parts, simplifyPush parts [] = parts ∧ simplifyPush parts ['.'] = parts) ∧
    pathSimplify ['a', '/', '.', '/', 'b', '/', '.', '.', '/', 'c'] = ['a', '/', 'c'] := by
  have hPhead : P ≠ [] → P.head? ≠ some '~' := by
    intro hne
    cases P with
    | nil => exact absurd rfl hne
    | cons x P' => simpa using hPc
  refine ⟨?_, ?_, ?_, fun parts => ⟨simplifyPush_empty parts, simplifyPush_dot parts⟩,
    by decide⟩
  · have e : P ++ c ++ ['/', '.', '.', '/'] ++ R = P ++ (c ++ ['/', '.', '.', '/'] ++ R) := by
      simp
    rw [e]
    refine pathSimplify_congr P _ R hP (simplifyComps_pair hc R) ?_ hPR ?_ (fun _ => hR)
    · cases P with
      | nil =>
        cases c with
        | nil => exact absurd rfl hc.1
        | cons x c' => simpa using hPc
      | cons x P' => simpa using hPc
    · intro _
      cases c with
      | nil => exact absurd rfl hc.1
      | cons x c' =>
        have hx : x ≠ '/' := fun e => hc.2.1 (by simp [e])
        simpa using hx
  · have e : P ++ ['.', '/'] ++ R = P ++ (['.', '/'] ++ R) := by simp
    rw [e]
    refine pathSimplify_congr P _ R hP (simplifyComps_dot R) ?_ hPR ?_ (fun _ => hR)
    · cases P with
      | nil => simp
      | cons x P' => simpa using hPc
    · intro _
      simp
  · intro hne
    have e : P ++ ['/'] ++ R = P ++ (['/'] ++ R) := by simp
    rw [e]
    refine pathSimplify_congr P _ R hP (simplifyComps_emptyComp R) ?_ hPR
      (fun h => absurd h hne) (fun _ => hR)
    cases P with
    | nil => exact absurd rfl hne
    | cons x P' => simpa using hPc

theorem pathSimplify_cancel_pair_witness :
    pathSimplify (['/', 'u', '/'] ++ ['b'] ++ ['/', '.', '.', '/'] ++ ['c', '/', 'd']) =
        pathSimplify (['/', 'u', '/'] ++ ['c', '/', 'd']) ∧
      pathSimplify (['/', 'u', '/'] ++ ['.', '/'] ++ ['c', '/', 'd']) =
        pathSimplify (['/', 'u', '/'] ++ ['c', '/', 'd']) ∧
      ((['/', 'u', '/'] : Str) ≠ [] →
        pathSimplify (['/', 'u', '/'] ++ ['/'] ++ ['c', '/', 'd']) =
          pathSimplify (['/', 'u', '/'] ++ ['c', '/', 'd'])) ∧
      (∀ parts, simplifyPush parts [] = parts ∧ simplifyPush parts ['.'] = parts) ∧
      pathSimplify ['a', '/', '.', '/', 'b', '/', '.', '.', '/', 'c'] = ['a', '/', 'c'] :=
  pathSimplify_cancel_pair ['/', 'u', '/'] ['b'] ['c', '/', 'd'] (by decide) (by decide)
    (by decide) (by decide) (by decide)

/-- C11: the path-algebra functions never fail on the POSIX build.  Read with every
`substr` and `operator[]` range-checked, each of `pathIsAbsolute`, `pathSimplify`,
`pathConcat`, `pathGetDirectory`, `pathGetFileName`, `pathGetShortFileExtension`,
`pathGetFullFileExtension` and `pathReplaceFullFileExtension` returns, for every input,
the value of its unchecked reading; `pathIndexOfFirstSeparator` returns, for every start
index, `npos` or a position from `start` on and below the length; `pathIndexOfFileName`
returns a position not above the length.  In the loop of `pathSimplify` an iteration with
the scan offset above the length would fail, so the offset stays within the length in
every iteration.  The empty string, `"~"`, `"~/"`, `"/"` and `"a/"` are evaluated. -/
theorem path_algebra_never_fails :
    (∀ path, pathIsAbsoluteC path = some (pathIsAbsolute path)) ∧
    (∀ path start, pathIndexOfFirstSeparator path start = none ∨
      ∃ pos, pathIndexOfFirstSeparator path start = some pos ∧ start ≤ pos ∧
        pos < path.length) ∧
    (∀ path, pathSimplifyC path = some (pathSimplify path)) ∧
    (∀ fuel path off parts, path.length < off →
      simplifyLoopC (fuel + 1) path off parts = none) ∧
    (∀ path1 path2, pathConcatC path1 path2 = some (pathConcat path1 path2)) ∧
    (∀ path, pathIndexOfFileName path ≤ path.length) ∧
    (∀ path, pathGetDirectoryC path = some (pathGetDirectory path)) ∧
    (∀ path, pathGetFileNameC path = some (pathGetFileName path)) ∧
    (∀ path, pathGetShortFileExtensionC path = some (pathGetShortFileExtension path)) ∧
    (∀ path, pathGetFullFileExtensionC path = some (pathGetFullFileExtension path)) ∧
    (∀ path ext, pathReplaceFullFileExtensionC path ext =
      some (pathReplaceFullFileExtension path ext)) ∧
    pathSimplifyC [] = some [] ∧
    pathSimplifyC ['~'] = some ['~'] ∧
    pathSimplifyC ['~', '/'] = some ['~', '/'] ∧
    pathSimplifyC ['/'] = some ['/'] ∧
    pathSimplifyC ['a', '/'] = some ['a'] ∧
    pathIsAbsoluteC [] = some false ∧
    pathGetDirectoryC [] = some [] ∧
    pathGetFileNameC ['a', '/'] = some [] := by
  refine ⟨pathIsAbsoluteC_eq, ?_, pathSimplifyC_eq, simplifyLoopC_out_of_range, pathConcatC_eq,
    pathIndexOfFileName_le, pathGetDirectoryC_eq, pathGetFileNameC_eq,
    pathGetShortFileExtensionC_eq, pathGetFullFileExtensionC_eq,
    pathReplaceFullFileExtensionC_eq, by decide, by decide, by decide, by decide, by decide,
    by decide, by decide, by decide⟩
  intro path start
  cases h : pathIndexOfFirstSeparator path start with
  | none => exact Or.inl rfl
  | some pos => exact Or.inr ⟨pos, rfl, strFind_some_lt h⟩

end PathUtil
